import Mathlib

/-!
Verification of the crawl-and-localize engine of the bid3-manuals scraper
(`src/scraper.py`).  The Python module is shallowly embedded: URL strings are
Lean `String`s, `pathlib.Path` values are modelled by `PPath` (absolute flag
plus the list of normalized components, mirroring `PurePosixPath` semantics:
empty and "." segments are dropped, ".." is kept), HTTP traffic and the
download oracle are explicit function parameters, and Python exceptions are
`Except` values.  The machine-dependent module constant `HTML_DIR` is passed
explicitly as a `root : PPath` argument.  `re.sub` calls on the two anchored
regular expressions are embedded as the equivalent string parsers (the
patterns `^https?://[^/]+/` and `^https?://[^/]+/pages/` have at most one
match, since `[^/]+` cannot extend past the first slash).  SHA-1 is
implemented in full so that the query-hash suffix of `_local_for_url` is the
real one.
-/

set_option maxRecDepth 40000

namespace Bid3

/-- Boolean prefix test on strings, `url.startswith(pre)` in Python. -/
def strStarts (s pre : String) : Bool := pre.data.isPrefixOf s.data

/-- Boolean suffix test on strings, `url.endswith(suf)` in Python. -/
def strEnds (s suf : String) : Bool := suf.data.isSuffixOf s.data

/-- The characters after the first occurrence of `c`, if `c` occurs. -/
def afterFirst (c : Char) : List Char → Option (List Char)
  | [] => none
  | x :: xs => if x = c then some xs else afterFirst c xs

/-- Index of the last occurrence of `c`, Python `str.rfind` (when it hits). -/
def rfindIdx (c : Char) : List Char → Option Nat
  | [] => none
  | x :: xs =>
    match rfindIdx c xs with
    | some i => some (i + 1)
    | none => if x = c then some 0 else none

/-- Splitter on a character, Python `str.split(c)`: `n` separators give
`n + 1` (possibly empty) parts. -/
def chSplitAux (c : Char) : List Char → List Char → List (List Char)
  | [], acc => [acc.reverse]
  | x :: xs, acc =>
    if x = c then acc.reverse :: chSplitAux c xs []
    else chSplitAux c xs (x :: acc)

def chSplit (c : Char) (l : List Char) : List (List Char) := chSplitAux c l []

/-- Python `str.replace(pat, "")`-style left-to-right non-overlapping
replacement by the empty string, fuelled by the input length. -/
def replDelAux (pat : List Char) : Nat → List Char → List Char
  | _, [] => []
  | 0, l => l
  | f + 1, x :: xs =>
    if pat ≠ [] ∧ pat.isPrefixOf (x :: xs) then
      replDelAux pat f ((x :: xs).drop pat.length)
    else x :: replDelAux pat f xs

def replDel (pat : List Char) (l : List Char) : List Char :=
  replDelAux pat l.length l

/-- Module constant `DOMAIN` of `scraper.py`. -/
def DOMAIN : String := "https://bid3.afry.com"

/-- Module constant `PAGES_PREFIX = DOMAIN + "/pages/"`. -/
def PAGES_PREFIX : String := DOMAIN ++ "/pages/"

/-- `allowed_scope(url)`: `url.startswith(PAGES_PREFIX)`. -/
def allowed_scope (url : String) : Bool := strStarts url PAGES_PREFIX

/-- The remainder of the text after an initial `http://` or `https://`
(the `^https?://` part of the two regular expressions). -/
def stripScheme (l : List Char) : Option (List Char) :=
  if "http://".data.isPrefixOf l then some (l.drop 7)
  else if "https://".data.isPrefixOf l then some (l.drop 8)
  else none

/-- After the scheme, `[^/]+/` of the regular expressions: at least one
non-slash character, then the text after the first slash. -/
def hostTail (l : List Char) : Option (List Char) :=
  match l with
  | [] => none
  | x :: xs => if x = '/' then none else afterFirst '/' (x :: xs)

/-- Embeds `re.sub(r"^https?://[^/]+/", "", url)` of `_local_for_url`:
strip scheme and host, keeping everything after the first slash that follows
the host (the URL is returned unchanged when the pattern does not match). -/
def stripAfterHost (url : String) : String :=
  match stripScheme url.data with
  | none => url
  | some r =>
    match hostTail r with
    | none => url
    | some rest => String.mk rest

/-- Embeds `re.sub(r"^https?://[^/]+/pages/", "", url)` of
`sanitize_local_path` and `rewrite_links_and_save`. -/
def stripPagesPrefix (url : String) : String :=
  match stripScheme url.data with
  | none => url
  | some r =>
    match hostTail r with
    | none => url
    | some rest =>
      if "pages/".data.isPrefixOf rest then String.mk (rest.drop 6) else url

/-- Embeds `urlsplit(url).query` for absolute http(s) URLs: the text after
the first `?` of the part that precedes the first `#`. -/
def urlQuery (url : String) : String :=
  match afterFirst '?' (url.data.takeWhile (fun c => c ≠ '#')) with
  | none => ""
  | some r => String.mk r

/-- Python `start_url.rsplit("/", 1)[0]`: the text before the last slash,
or the whole string when there is none. -/
def rsplitHead (s : String) : String :=
  match rfindIdx '/' s.data with
  | none => s
  | some i => String.mk (s.data.take i)

/-- Python `start_url.rsplit("/", 1)[1]`-style last component (the whole
string when there is no slash). -/
def afterLastSlash (s : String) : String :=
  match rfindIdx '/' s.data with
  | none => s
  | some i => String.mk (s.data.drop (i + 1))

/-- `_abs_url(base, link)` of `scraper.py`, `None` as `none`. -/
def abs_url (base link : String) : Option String :=
  if link = "" then none
  else if strStarts link "http://" ∨ strStarts link "https://" then some link
  else if strStarts link "//" then some ("https:" ++ link)
  else if strStarts link "/" then some (DOMAIN ++ link)
  else if strEnds base "/" then some (base ++ link)
  else some (rsplitHead base ++ "/" ++ link)

/-- A `pathlib.PurePosixPath`: the absolute flag and the normalized
components (`parts` without the leading "/").  `pathlib` drops empty and
"." segments and keeps ".."; two `Path`s are equal exactly when these
normalized forms agree, which is also when they name the same file. -/
structure PPath where
  isAbs : Bool
  comps : List String
deriving DecidableEq, Repr

/-- Components of a path string: split on "/", drop empty and "." parts. -/
def cleanParts (l : List (List Char)) : List String :=
  ((chSplitJunk l).map String.mk) where
  chSplitJunk (l : List (List Char)) : List (List Char) :=
    l.filter (fun c => ¬(c = [] ∨ c = ['.']))

/-- Parse a path string the way `pathlib.Path(s)` does. -/
def parseRel (s : String) : PPath :=
  ⟨strStarts s "/", cleanParts (chSplit '/' s.data)⟩

/-- `p / s` on paths: a joined string that is absolute discards `p`
entirely, as in `pathlib`. -/
def pathJoin (p : PPath) (s : String) : PPath :=
  let q := parseRel s
  if q.isAbs then q else ⟨p.isAbs, p.comps ++ q.comps⟩

/-- `Path.name`: the final component ("" for an empty path). -/
def pname (p : PPath) : String := p.comps.getLast?.getD ""

/-- `Path.stem` and `Path.suffix` of a file name, by the CPython rule: the
split is at the last dot when its index `i` satisfies `0 < i < len - 1`,
otherwise the suffix is empty. -/
def nameSplit (n : String) : String × String :=
  match rfindIdx '.' n.data with
  | some i =>
    if 0 < i ∧ i + 1 < n.data.length then
      (String.mk (n.data.take i), String.mk (n.data.drop i))
    else (n, "")
  | none => (n, "")

/-- `Path.with_name`: replace the final component. -/
def withName (p : PPath) (n : String) : PPath :=
  ⟨p.isAbs, p.comps.dropLast ++ [n]⟩

/-- `Path.parent` (for the paths with components that the code builds). -/
def parentPath (p : PPath) : PPath := ⟨p.isAbs, p.comps.dropLast⟩

/-- `str(path)` for a `PurePosixPath`. -/
def pathString (p : PPath) : String :=
  if p.isAbs then "/" ++ String.intercalate "/" p.comps
  else if p.comps = [] then "." else String.intercalate "/" p.comps

/-- `dest.relative_to(root)`: the components of `dest` past `root`, or an
error (Python `ValueError`) when `root` is not an ancestor. -/
def relativeTo (p root : PPath) : Except Unit (List String) :=
  if p.isAbs = root.isAbs ∧ root.comps.isPrefixOf p.comps then
    .ok (p.comps.drop root.comps.length)
  else .error ()

/-- The string form of a relative components list, `str(Path(*comps))`. -/
def relString (comps : List String) : String :=
  if comps = [] then "." else String.intercalate "/" comps

/-- Whether `p` lies under the directory `root` (same anchor and `root`'s
components are an initial segment of `p`'s). -/
def underRoot (root p : PPath) : Bool :=
  root.isAbs = p.isAbs && root.comps.isPrefixOf p.comps

def M32 : Nat := 4294967296

/-- Rotate a 32-bit word left by `n`. -/
def rotl (n x : Nat) : Nat := ((x <<< n) % M32) ||| (x >>> (32 - n))

def wordBE (a b c d : Nat) : Nat := ((a * 256 + b) * 256 + c) * 256 + d

def toWords : List Nat → List Nat
  | a :: b :: c :: d :: rest => wordBE a b c d :: toWords rest
  | _ => []

/-- SHA-1 message padding: `0x80`, zeros to 56 mod 64, 8-byte big-endian
bit length. -/
def padMsg (m : List Nat) : List Nat :=
  let L := m.length
  let k := (120 - (L + 1) % 64) % 64
  let bl := 8 * L
  m ++ [128] ++ List.replicate k 0 ++
    [(bl >>> 56) % 256, (bl >>> 48) % 256, (bl >>> 40) % 256, (bl >>> 32) % 256,
     (bl >>> 24) % 256, (bl >>> 16) % 256, (bl >>> 8) % 256, bl % 256]

/-- Extend the 16 schedule words of a chunk, one word per fuel step. -/
def extendLoop (ws : List Nat) : Nat → List Nat
  | 0 => ws
  | n + 1 =>
    let i := ws.length
    extendLoop
      (ws ++ [rotl 1 ((ws.getD (i - 3) 0) ^^^ (ws.getD (i - 8) 0) ^^^
                      (ws.getD (i - 14) 0) ^^^ (ws.getD (i - 16) 0))]) n

def roundF (i b c d : Nat) : Nat :=
  if i < 20 then (b &&& c) ||| ((4294967295 ^^^ b) &&& d)
  else if i < 40 then b ^^^ c ^^^ d
  else if i < 60 then (b &&& c) ||| (b &&& d) ||| (c &&& d)
  else b ^^^ c ^^^ d

def roundK (i : Nat) : Nat :=
  if i < 20 then 1518500249
  else if i < 40 then 1859775393
  else if i < 60 then 2400959708
  else 3395469782

def roundStep (st : Nat × Nat × Nat × Nat × Nat) (iw : Nat × Nat) :
    Nat × Nat × Nat × Nat × Nat :=
  let (a, b, c, d, e) := st
  let (i, wi) := iw
  let t := (rotl 5 a + roundF i b c d + e + roundK i + wi) % M32
  (t, a, rotl 30 b, c, d)

def processChunk (h : Nat × Nat × Nat × Nat × Nat) (chunk : List Nat) :
    Nat × Nat × Nat × Nat × Nat :=
  let w := extendLoop (toWords chunk) 64
  let (h0, h1, h2, h3, h4) := h
  let (a, b, c, d, e) := w.enum.foldl roundStep (h0, h1, h2, h3, h4)
  ((h0 + a) % M32, (h1 + b) % M32, (h2 + c) % M32, (h3 + d) % M32, (h4 + e) % M32)

/-- 64-byte chunking, fuelled by the input length so that it unfolds by
plain structural recursion. -/
def splitChunksF : Nat → List Nat → List (List Nat)
  | _, [] => []
  | 0, l => [l]
  | f + 1, x :: rest => (x :: rest.take 63) :: splitChunksF f (rest.drop 63)

def splitChunks (l : List Nat) : List (List Nat) := splitChunksF l.length l

/-- The five 32-bit state words of the SHA-1 digest of a byte string. -/
def sha1Words (m : List Nat) : Nat × Nat × Nat × Nat × Nat :=
  (splitChunks (padMsg m)).foldl processChunk
    (1732584193, 4023233417, 2562383102, 271733878, 3285377520)

/-- UTF-8 encoding of one code point, `str.encode("utf8")` per character. -/
def utf8Char (c : Char) : List Nat :=
  let n := c.toNat
  if n < 128 then [n]
  else if n < 2048 then [192 + n / 64, 128 + n % 64]
  else if n < 65536 then [224 + n / 4096, 128 + (n / 64) % 64, 128 + n % 64]
  else [240 + n / 262144, 128 + (n / 4096) % 64, 128 + (n / 64) % 64, 128 + n % 64]

def utf8Bytes (s : String) : List Nat := (s.data.map utf8Char).flatten

def hexDigit : Nat → Char
  | 0 => '0' | 1 => '1' | 2 => '2' | 3 => '3' | 4 => '4' | 5 => '5' | 6 => '6'
  | 7 => '7' | 8 => '8' | 9 => '9' | 10 => 'a' | 11 => 'b' | 12 => 'c'
  | 13 => 'd' | 14 => 'e' | _ => 'f'

def hex8 (w : Nat) : String :=
  String.mk [hexDigit ((w >>> 28) % 16), hexDigit ((w >>> 24) % 16),
             hexDigit ((w >>> 20) % 16), hexDigit ((w >>> 16) % 16),
             hexDigit ((w >>> 12) % 16), hexDigit ((w >>> 8) % 16),
             hexDigit ((w >>> 4) % 16), hexDigit (w % 16)]

/-- `hashlib.sha1(s.encode("utf8")).hexdigest()[:8]`: the first eight hex
characters of the digest, i.e. the first state word in hex. -/
def sha1Hex8 (s : String) : String := hex8 (sha1Words (utf8Bytes s)).1

/-- `_local_for_url(url)` of `scraper.py` with `HTML_DIR` passed as `root`:
strip scheme and host, join under the root, and when the URL carries a
query string rename the file to `stem-hash8suffix`.  Note that the query
text itself is part of the stripped remainder and therefore of the path. -/
def local_for_url (root : PPath) (url : String) : PPath :=
  let q := urlQuery url
  let base := pathJoin root (stripAfterHost url)
  if q = "" then base
  else
    let sp := nameSplit (pname base)
    withName base (sp.1 ++ "-" ++ sha1Hex8 q ++ sp.2)

/-- `sanitize_local_path(url)` with `HTML_DIR` passed as `root`; the Python
`ValueError` for an out-of-scope URL is the `Except` error. -/
def sanitize_local_path (root : PPath) (url : String) : Except Unit PPath :=
  if allowed_scope url then .ok (pathJoin root (stripPagesPrefix url))
  else .error ()

/-- One HTTP response of the mocked session: status code and body bytes. -/
structure HttpResp where
  status : Nat
  body : List Nat
deriving DecidableEq, Repr

deriving instance DecidableEq for Except

/-- Observable trace of one `download_resource` call: whether the parent
directory was created, how many GET attempts ran, the sleeps between them
(milliseconds), the bytes written to `dest` (if any), and the final outcome
(`Except.error s` is the `raise_for_status` HTTPError with status `s`). -/
structure DLTrace where
  mkdirParent : Bool
  requests : Nat
  sleeps : List Nat
  written : Option (List Nat)
  outcome : Except Nat Unit
deriving DecidableEq, Repr

/-- `requests.Response.raise_for_status()`: raises exactly for 4xx/5xx. -/
def raiseForStatus (s : Nat) : Except Nat Unit :=
  if 400 ≤ s ∧ s < 600 then .error s else .ok ()

/-- `download_resource(session, url, dest)` of `scraper.py`, with the
session's responses per attempt supplied as `resp`.  The loop body is the
unrolled `for attempt in range(3)`: write-and-return on status 200, else
`sleep(0.5 * (attempt + 1))`; after the loop, `raise_for_status` on the
final response. -/
def download_resource (resp : Nat → HttpResp) : DLTrace :=
  let r0 := resp 0
  if r0.status = 200 then ⟨true, 1, [], some r0.body, .ok ()⟩
  else
    let r1 := resp 1
    if r1.status = 200 then ⟨true, 2, [500], some r1.body, .ok ()⟩
    else
      let r2 := resp 2
      if r2.status = 200 then ⟨true, 3, [500, 1000], some r2.body, .ok ()⟩
      else ⟨true, 3, [500, 1000, 1500], none, raiseForStatus r2.status⟩

/-- One markup element as the rewriter sees it: its tag and its string
attributes (BeautifulSoup `node.get(attr)` is an association-list lookup). -/
structure Node where
  tag : String
  attrs : List (String × String)
deriving DecidableEq, Repr

/-- A parsed page, abstracting the BeautifulSoup tree to what the module
reads from it: the element list and, per `<style>` block, the list of
`url(...)` reference tokens that the regex `url\\(([^)]+)\\)` would match. -/
structure Page where
  nodes : List Node
  styles : List (List String)
deriving DecidableEq, Repr

/-- The `attr_tags` table of `rewrite_links_and_save`. -/
def attrTags : List (String × String × Bool) :=
  [("a", "href", false), ("link", "href", true),
   ("script", "src", true), ("img", "src", true)]

/-- The attribute and is-asset flag a tag is processed under, if any.  The
Python loop is rule-major over `attr_tags`; since the four tags are
distinct, each node is touched by at most the one rule found here, and the
embedding processes nodes node-major with identical per-node results. -/
def findRule (tag : String) : Option (String × Bool) :=
  (attrTags.find? (fun r => r.1 = tag)).map (fun r => r.2)

def lookupAttr (n : Node) (k : String) : Option String :=
  (n.attrs.find? (fun p => p.1 = k)).map (fun p => p.2)

/-- `node[attr] = v` on a node whose `attr` is present. -/
def setAttr (attrs : List (String × String)) (k v : String) :
    List (String × String) :=
  attrs.map (fun p => if p.1 = k then (k, v) else p)

/-- Per-node body of the `attr_tags` loop of `rewrite_links_and_save`.
`dl` is the download oracle (whether `download_resource` succeeds for a
URL); the returned list records the attempted asset downloads.  The
`Except` error is the uncaught `ValueError` of `dest.relative_to(HTML_DIR)`
after a successful download of an asset whose stripped remainder is an
absolute path (possible for `DOMAIN//...` URLs). -/
def processNode (root : PPath) (dl : String → Bool) (url : String) (n : Node) :
    Except Unit (Node × List (String × Bool)) :=
  match findRule n.tag with
  | none => .ok (n, [])
  | some (attr, isAsset) =>
    match lookupAttr n attr with
    | none => .ok (n, [])
    | some v =>
      match abs_url url v with
      | none => .ok (n, [])
      | some a =>
        if strStarts a PAGES_PREFIX then
          .ok ({ n with attrs := setAttr n.attrs attr ("./" ++ stripPagesPrefix a) }, [])
        else if isAsset && strStarts a DOMAIN then
          if dl a then
            match relativeTo (local_for_url root a) root with
            | .error _ => .error ()
            | .ok comps =>
              .ok ({ n with attrs := setAttr n.attrs attr ("./" ++ relString comps) },
                   [(a, true)])
          else .ok (n, [(a, false)])
        else .ok (n, [])

/-- Python `str.strip(chars)` for the quote characters, both ends. -/
def stripQuotes (s : String) : String :=
  let isQ : Char → Bool := fun c => c = '"' ∨ c = '\''
  String.mk (((s.data.dropWhile isQ).reverse.dropWhile isQ).reverse)

/-- The `repl` callback applied to one `url(...)` token of a style block:
strip quotes, resolve (the Python code passes the token itself as `base`,
shadowing the page URL), download when same-site, rewrite on success and
keep the original token on download failure. -/
def processStyleTok (root : PPath) (dl : String → Bool) (tok : String) :
    Except Unit (String × List (String × Bool)) :=
  let u0 := stripQuotes tok
  match (if u0 = "" then none else abs_url u0 u0) with
  | none => .ok (tok, [])
  | some a =>
    if strStarts a DOMAIN then
      if dl a then
        match relativeTo (local_for_url root a) root with
        | .error _ => .error ()
        | .ok comps => .ok ("./" ++ relString comps, [(a, true)])
      else .ok (tok, [(a, false)])
    else .ok (tok, [])

/-- Result of one `rewrite_links_and_save` call: the serialized page (its
mutated tree), the attempted asset downloads `(url, succeeded)` in order,
and the path the page was written to. -/
structure RWResult where
  page : Page
  attempted : List (String × Bool)
  savedAt : PPath
deriving DecidableEq, Repr

/-- `rewrite_links_and_save(session, url, html)` with `HTML_DIR` as `root`,
the parsed page as `pg` and the session's download behaviour as `dl`:
process all elements, then all style blocks, then save the page at its
`sanitize_local_path` (whose `ValueError` for an out-of-scope page URL,
like the `relative_to` error, propagates as `Except.error`). -/
def rewrite_links_and_save (root : PPath) (dl : String → Bool) (url : String)
    (pg : Page) : Except Unit RWResult :=
  match pg.nodes.mapM (processNode root dl url) with
  | .error e => .error e
  | .ok rs =>
    match pg.styles.mapM (fun blk => blk.mapM (processStyleTok root dl)) with
    | .error e => .error e
    | .ok sblks =>
      match sanitize_local_path root url with
      | .error e => .error e
      | .ok out =>
        .ok ⟨⟨rs.map (fun r => r.1), sblks.map (fun b => b.map (fun r => r.1))⟩,
             (rs.map (fun r => r.2)).flatten ++
               ((sblks.map (fun b => (b.map (fun r => r.2)).flatten)).flatten),
             out⟩

/-- The directory-scope URL prefixes of `crawl_directory`: the start URL\'s
containing directory, plus the sibling directory named after the resource
when the start URL ends in ".html". -/
def scopePrefixes (start : String) : List String :=
  let baseDir := rsplitHead start ++ "/"
  if strEnds start ".html" then
    let alt := rsplitHead start ++ "/" ++
      String.mk (replDel ".html".data (afterLastSlash start).data) ++ "/"
    if alt = baseDir then [baseDir] else [baseDir, alt]
  else [baseDir]

/-- Observable trace of a crawl: fetched URLs, saved page URLs in order,
URLs appended to the work queue beyond the start URL, attempted asset
downloads, and the saved-page count the function returns. -/
structure CrawlAcc where
  fetched : List String
  savedList : List String
  enqueued : List String
  downloads : List (String × Bool)
  saved : Nat
deriving DecidableEq, Repr

inductive CrawlStatus
  | done
  | raised
  | fuelOut
deriving DecidableEq, Repr

structure CrawlOut where
  acc : CrawlAcc
  status : CrawlStatus
deriving DecidableEq, Repr

def emptyAcc : CrawlAcc := ⟨[], [], [], [], 0⟩

/-- The link-discovery loop at the end of each `crawl_directory` iteration:
anchors of the fetched page, resolved to absolute form, kept when in global
scope, matching a scope prefix and not yet seen. -/
def pageLinks (prefixes : List String) (u : String) (pg : Page)
    (seen : List String) : List String :=
  (pg.nodes.filter (fun n => n.tag = "a")).filterMap (fun n =>
    match lookupAttr n "href" with
    | none => none
    | some href =>
      match abs_url u href with
      | none => none
      | some a =>
        if allowed_scope a && prefixes.any (fun p => strStarts a p)
            && !(seen.contains a) then some a
        else none)

/-- The `while to_visit:` loop of `crawl_directory`, fuelled.  `net u` is
the fetched-and-parsed page for `u` (`none` models a request failure or a
non-2xx status, which the code skips); an `Except` error from the rewriter
propagates out of the loop (`CrawlStatus.raised`), as the uncaught Python
exception would. -/
def crawlLoop (net : String → Option Page) (dl : String → Bool) (root : PPath)
    (prefixes : List String) : Nat → List String → List String → CrawlAcc → CrawlOut
  | 0, [], _, acc => ⟨acc, .done⟩
  | 0, _ :: _, _, acc => ⟨acc, .fuelOut⟩
  | _ + 1, [], _, acc => ⟨acc, .done⟩
  | f + 1, u :: rest, seen, acc =>
    if seen.contains u then crawlLoop net dl root prefixes f rest seen acc
    else
      let seen2 := u :: seen
      match net u with
      | none =>
        crawlLoop net dl root prefixes f rest seen2
          { acc with fetched := acc.fetched ++ [u] }
      | some pg =>
        match rewrite_links_and_save root dl u pg with
        | .error _ => ⟨{ acc with fetched := acc.fetched ++ [u] }, .raised⟩
        | .ok r =>
          let links := pageLinks prefixes u pg seen2
          crawlLoop net dl root prefixes f (rest ++ links) seen2
            { acc with
              fetched := acc.fetched ++ [u],
              savedList := acc.savedList ++ [u],
              enqueued := acc.enqueued ++ links,
              downloads := acc.downloads ++ r.attempted,
              saved := acc.saved + 1 }

/-- `crawl_directory(start_url, session)`: returns 0 at once when the start
URL is out of the global scope, else runs the queue seeded with it. -/
def crawl_directory (net : String → Option Page) (dl : String → Bool)
    (root : PPath) (start : String) (fuel : Nat) : CrawlOut :=
  if allowed_scope start then
    crawlLoop net dl root (scopePrefixes start) fuel [start] [] emptyAcc
  else ⟨emptyAcc, .done⟩

/-- Aggregate trace of `scrape_from`: all saved page URLs across the
per-start-URL crawls in order, and the summed saved count it returns. -/
structure ScrapeOut where
  savedList : List String
  total : Nat
  status : CrawlStatus
deriving DecidableEq, Repr

def scrapeLoop (net : String → Option Page) (dl : String → Bool) (root : PPath)
    (fuel : Nat) : List String → ScrapeOut → ScrapeOut
  | [], acc => acc
  | u :: rest, acc =>
    if allowed_scope u then
      let c := crawl_directory net dl root u fuel
      let acc2 : ScrapeOut :=
        ⟨acc.savedList ++ c.acc.savedList, acc.total + c.acc.saved, c.status⟩
      match c.status with
      | .done => scrapeLoop net dl root fuel rest acc2
      | _ => acc2
    else scrapeLoop net dl root fuel rest acc

/-- `scrape_from(manuals_json)` with the loaded start-URL list passed
directly (manifest parsing is I/O outside the engine): one shared session,
skip out-of-scope start URLs, sum the crawl results. -/
def scrape_from (net : String → Option Page) (dl : String → Bool) (root : PPath)
    (urls : List String) (fuel : Nat) : ScrapeOut :=
  scrapeLoop net dl root fuel urls ⟨[], 0, .done⟩

/-- The files below the validator root: the `*.html` files `rglob` yields,
each with its parsed page, and the other existing filesystem entries.  All
paths are in resolved (normalized) form. -/
structure FS where
  pages : List (PPath × Page)
  others : List PPath
deriving Repr

/-- `Path.resolve()` on an already-absolute path: ".." pops a component. -/
def normComps (l : List String) : List String :=
  l.foldl (fun acc c => if c = ".." then acc.dropLast else acc ++ [c]) []

def resolveP (p : PPath) : PPath := ⟨p.isAbs, normComps p.comps⟩

def fsExists (fs : FS) (p : PPath) : Bool :=
  fs.pages.any (fun q => q.1 = p) || fs.others.any (fun q => q = p)

/-- `validate_local_site(root)` over the modelled tree: for every page and
every anchor, skip missing/empty hrefs and `http...` links, resolve the
reference against the page\'s directory and report it when no file exists
there.  The function only reads; it returns the broken-link strings. -/
def validate_local_site (fs : FS) : List String :=
  (fs.pages.map (fun pp =>
    (pp.2.nodes.filter (fun n => n.tag = "a")).filterMap (fun n =>
      match lookupAttr n "href" with
      | none => none
      | some href =>
        if href = "" || strStarts href "http" then none
        else if fsExists fs (resolveP (pathJoin (parentPath pp.1) href)) then none
        else some (pathString pp.1 ++ ": broken link " ++ href)))).flatten

/-- Claim-side definition: resolving a (possibly "./"-prefixed) relative
reference from a directory, the way a browser or the filesystem would for
references without "..". -/
def resolveRef (dir : PPath) (r : String) : PPath := pathJoin dir r

/-- A concrete stand-in for the machine-dependent `HTML_DIR`. -/
def root0 : PPath := ⟨true, ["opt", "scraper", "html"]⟩

def urlManA : String := "https://bid3.afry.com/pages/man/a.html"

def urlManB : String := "https://bid3.afry.com/pages/man/b.html"

/-- Network model for the duplicate-save scenario: page `a.html` has no
links, page `b.html` links to `a.html`. -/
def netC4 : String → Option Page := fun u =>
  if u = urlManA then some ⟨[], []⟩
  else if u = urlManB then some ⟨[⟨"a", [("href", "a.html")]⟩], []⟩
  else none

def dlNone : String → Bool := fun _ => false

/-- C5 counterexample input: in scope, but the remainder after the
content-path prefix begins with a slash. -/
def urlEvil : String := "https://bid3.afry.com/pages//etc/passwd"

def pgC1 : Page := ⟨[⟨"a", [("href", "b.html")]⟩], []⟩

/-- The exact rewriter output on `pgC1` (checked by `decide` below). -/
def rwC1 : RWResult :=
  ⟨⟨[⟨"a", [("href", "./man/b.html")]⟩], []⟩, [],
   ⟨true, ["opt", "scraper", "html", "man", "a.html"]⟩⟩

def pgC6 : Page :=
  ⟨[⟨"img", [("src", "https://bid3.afry.com/ok.css")]⟩,
    ⟨"img", [("src", "https://bid3.afry.com//weird.css")]⟩], []⟩

def dlC6 : String → Bool := fun a => a = "https://bid3.afry.com//weird.css"

def uColl1 : String := "https://bid3.afry.com/static/a.css?v=1/././//.//.///./////./x"

def uColl2 : String := "https://bid3.afry.com/static/a.css?v=1//./././///.//././////x"

/-- The responses of a session that always answers 204 No Content. -/
def resp204 : Nat → HttpResp := fun _ => ⟨204, [7]⟩

def respC2 : Nat → HttpResp := fun i => if i = 2 then ⟨200, [9]⟩ else ⟨404, []⟩

/-- C2 (counterexample).  The claim says `download_resource` retries on
non-2xx status and, when it does not retry, writes the body; on a session
that always answers 204 (a 2xx success) the code nevertheless retries all
3 attempts, writes nothing, and returns without any error, because the
loop tests `status == 200` and `raise_for_status` is a no-op below 400. -/
theorem c2_counterexample :
    download_resource resp204 =
      ⟨true, 3, [500, 1000, 1500], none, .ok ()⟩ := by
  decide

/-- C2 (amended).  `download_resource` creates the parent directory first
and performs up to 3 GET attempts, retrying on any non-200 status with
0.5 s times the attempt number of backoff; on the first 200 it writes the
body verbatim and stops; after three non-200 attempts it raises the
HTTPError carrying the final status when that status is 4xx/5xx and
otherwise returns without writing. -/
theorem c2_download_resource_spec (resp : Nat → HttpResp) :
    (download_resource resp).mkdirParent = true ∧
    ((resp 0).status = 200 →
      download_resource resp = ⟨true, 1, [], some (resp 0).body, .ok ()⟩) ∧
    ((resp 0).status ≠ 200 → (resp 1).status = 200 →
      download_resource resp = ⟨true, 2, [500], some (resp 1).body, .ok ()⟩) ∧
    ((resp 0).status ≠ 200 → (resp 1).status ≠ 200 → (resp 2).status = 200 →
      download_resource resp =
        ⟨true, 3, [500, 1000], some (resp 2).body, .ok ()⟩) ∧
    ((resp 0).status ≠ 200 → (resp 1).status ≠ 200 → (resp 2).status ≠ 200 →
      download_resource resp =
        ⟨true, 3, [500, 1000, 1500], none,
         if 400 ≤ (resp 2).status ∧ (resp 2).status < 600 then
           .error (resp 2).status
         else .ok ()⟩) := by
  unfold download_resource raiseForStatus
  refine ⟨by dsimp only; split_ifs <;> rfl, ?_, ?_, ?_, ?_⟩ <;>
    intros <;> simp_all

/-- Witness for `c2_download_resource_spec` at a session that fails twice
with 404 and then succeeds. -/
theorem c2_witness :
    download_resource respC2 = ⟨true, 3, [500, 1000], some (respC2 2).body, .ok ()⟩ :=
  (c2_download_resource_spec respC2).2.2.2.1 (by decide) (by decide) (by decide)

/-- C5 (counterexample).  `urlEvil` passes `allowed_scope`, but its
remainder after the content-path prefix is the absolute path
`/etc/passwd`, so `HTML_DIR / remainder` discards the root entirely and
the result does not lie under the output root. -/
theorem c5_counterexample :
    allowed_scope urlEvil = true ∧
    sanitize_local_path root0 urlEvil = .ok ⟨true, ["etc", "passwd"]⟩ ∧
    underRoot root0 ⟨true, ["etc", "passwd"]⟩ = false := by
  decide

/-- C5 (amended).  `sanitize_local_path` fails exactly on the URLs
`allowed_scope` rejects; on in-scope URLs it is the fixed function
`root / stripPagesPrefix url` (purity is definitional in the embedding),
and its result lies under the output root provided the stripped remainder
is not an absolute path. -/
theorem c5_sanitize_spec (root : PPath) (url : String) :
    (sanitize_local_path root url = .error () ↔ allowed_scope url = false) ∧
    (allowed_scope url = true →
      sanitize_local_path root url = .ok (pathJoin root (stripPagesPrefix url))) ∧
    (allowed_scope url = true → (parseRel (stripPagesPrefix url)).isAbs = false →
      ∃ p, sanitize_local_path root url = .ok p ∧ underRoot root p = true) := by
  refine ⟨?_, ?_, ?_⟩
  · cases h : allowed_scope url <;> simp [sanitize_local_path, h]
  · intro h
    simp [sanitize_local_path, h]
  · intro h habs
    refine ⟨pathJoin root (stripPagesPrefix url), by simp [sanitize_local_path, h], ?_⟩
    simp only [pathJoin, habs, underRoot]
    simp [List.isPrefixOf_iff_prefix]

/-- Witness for `c5_sanitize_spec` at a normal in-scope URL. -/
theorem c5_witness :
    ∃ p, sanitize_local_path root0 "https://bid3.afry.com/pages/technical-manual/x.html" = .ok p ∧
      underRoot root0 p = true :=
  (c5_sanitize_spec root0 "https://bid3.afry.com/pages/technical-manual/x.html").2.2
    (by decide) (by decide)

/-- C10 (confirmed).  A start URL outside the global content-path scope
makes `crawl_directory` return 0 at once: nothing is fetched, nothing is
saved or downloaded, nothing is enqueued, and no error is raised. -/
theorem c10_out_of_scope_noop (net : String → Option Page) (dl : String → Bool)
    (root : PPath) (start : String) (fuel : Nat)
    (h : allowed_scope start = false) :
    crawl_directory net dl root start fuel = ⟨emptyAcc, .done⟩ := by
  simp [crawl_directory, h]

/-- Witness for `c10_out_of_scope_noop` at an off-site URL. -/
theorem c10_witness :
    crawl_directory netC4 dlNone root0 "https://example.com/pages/x.html" 3 =
      ⟨emptyAcc, .done⟩ :=
  c10_out_of_scope_noop netC4 dlNone root0 "https://example.com/pages/x.html" 3
    (by decide)

/-- C4 (counterexample).  One `scrape_from` run over two start URLs in the
same directory: the crawl of `b.html` rediscovers and re-saves `a.html`,
already saved by the first crawl, so the URL appears twice in the saved
sequence — there is no cross-crawl saved set. -/
theorem c4_counterexample :
    (scrape_from netC4 dlNone root0 [urlManA, urlManB] 5).savedList =
      [urlManA, urlManB, urlManA] ∧
    (scrape_from netC4 dlNone root0 [urlManA, urlManB] 5).savedList.count urlManA = 2 := by
  decide

/-- C1 (counterexample).  The page `/pages/man/a.html` is saved at
`root/man/a.html` and its link to `b.html` is rewritten to
`./man/b.html` — a path relative to the output root.  Resolved from the
saved page's own directory `root/man`, that reference reaches
`root/man/man/b.html`, not the target's save location `root/man/b.html`. -/
theorem c1_counterexample :
    rewrite_links_and_save root0 dlNone urlManA pgC1 = .ok rwC1 ∧
    sanitize_local_path root0 urlManB =
      .ok ⟨true, ["opt", "scraper", "html", "man", "b.html"]⟩ ∧
    resolveRef (parentPath rwC1.savedAt) "./man/b.html" =
      ⟨true, ["opt", "scraper", "html", "man", "man", "b.html"]⟩ ∧
    resolveRef (parentPath rwC1.savedAt) "./man/b.html" ≠
      ⟨true, ["opt", "scraper", "html", "man", "b.html"]⟩ := by
  decide

/-- C6 (counterexample).  A page whose first asset download fails (left
unmodified, as claimed) but whose second asset `DOMAIN//weird.css`
downloads successfully: the successful download maps to the absolute path
`/weird.css`, `relative_to(HTML_DIR)` raises an uncaught `ValueError`, and
the page is never serialized or written — so a download failure on the
page did not guarantee persistence. -/
theorem c6_counterexample :
    allowed_scope "https://bid3.afry.com/pages/p.html" = true ∧
    dlC6 "https://bid3.afry.com/ok.css" = false ∧
    rewrite_links_and_save root0 dlC6 "https://bid3.afry.com/pages/p.html" pgC6 =
      .error () := by
  decide

/-- C3 (counterexample).  Two URLs identical except for their (distinct)
query strings whose local paths coincide: the queries differ only by empty
and "." path segments, which `Path` normalization collapses, and their
8-hex-character truncated SHA-1 fingerprints collide (`17c51d17`). -/
theorem c3_counterexample :
    uColl1 ≠ uColl2 ∧
    String.mk (uColl1.data.takeWhile (fun c => c ≠ '?')) =
      String.mk (uColl2.data.takeWhile (fun c => c ≠ '?')) ∧
    urlQuery uColl1 ≠ urlQuery uColl2 ∧
    local_for_url root0 uColl1 = local_for_url root0 uColl2 := by
  decide

lemma crawlLoop_nil (net : String → Option Page) (dl : String → Bool)
    (root : PPath) (prefixes : List String) (fuel : Nat) (seen : List String)
    (acc : CrawlAcc) :
    crawlLoop net dl root prefixes fuel [] seen acc = ⟨acc, .done⟩ := by
  cases fuel <;> rfl

lemma pageLinks_mem (prefixes : List String) (u : String) (pg : Page)
    (seen : List String) (x : String)
    (hx : x ∈ pageLinks prefixes u pg seen) :
    allowed_scope x = true ∧ prefixes.any (fun p => strStarts x p) = true := by
  unfold pageLinks at hx
  obtain ⟨n, hn, he⟩ := List.mem_filterMap.mp hx
  cases hl : lookupAttr n "href" with
  | none => rw [hl] at he; dsimp only at he; exact absurd he (by simp)
  | some href =>
    rw [hl] at he
    dsimp only at he
    cases habs : abs_url u href with
    | none => rw [habs] at he; dsimp only at he; exact absurd he (by simp)
    | some a =>
      rw [habs] at he
      dsimp only at he
      by_cases hcond : (allowed_scope a && prefixes.any (fun p => strStarts a p)
          && !(seen.contains a)) = true
      · rw [if_pos hcond] at he
        obtain rfl : a = x := by simpa using he
        simp only [Bool.and_eq_true] at hcond
        exact ⟨hcond.1.1, hcond.1.2⟩
      · rw [if_neg hcond] at he
        exact absurd he (by simp)

lemma crawlLoop_enqueued (net : String → Option Page) (dl : String → Bool)
    (root : PPath) (prefixes : List String) :
    ∀ (fuel : Nat) (queue seen : List String) (acc : CrawlAcc),
      (∀ x ∈ acc.enqueued,
        allowed_scope x = true ∧ prefixes.any (fun p => strStarts x p) = true) →
      ∀ x ∈ (crawlLoop net dl root prefixes fuel queue seen acc).acc.enqueued,
        allowed_scope x = true ∧ prefixes.any (fun p => strStarts x p) = true := by
  intro fuel
  induction fuel with
  | zero =>
    intro queue seen acc h x hx
    cases queue <;> exact h x (by simpa [crawlLoop] using hx)
  | succ f ih =>
    intro queue seen acc h x hx
    cases queue with
    | nil => exact h x (by simpa [crawlLoop] using hx)
    | cons u rest =>
      rw [crawlLoop] at hx
      by_cases hc : seen.contains u = true
      · rw [if_pos hc] at hx
        exact ih rest seen acc h x hx
      · rw [if_neg hc] at hx
        dsimp only at hx
        cases hn : net u with
        | none =>
          rw [hn] at hx
          dsimp only at hx
          refine ih rest (u :: seen) _ ?_ x hx
          intro y hy
          exact h y hy
        | some pg =>
          rw [hn] at hx
          dsimp only at hx
          cases hr : rewrite_links_and_save root dl u pg with
          | error e => rw [hr] at hx; exact h x hx
          | ok r =>
            rw [hr] at hx
            dsimp only at hx
            refine ih _ (u :: seen) _ ?_ x hx
            intro y hy
            rcases List.mem_append.mp hy with hy1 | hy2
            · exact h y hy1
            · exact pageLinks_mem prefixes u pg (u :: seen) y hy2

/-- C7 (confirmed).  Every URL enqueued during a crawl beyond the start URL
is in the global content-path scope and extends at least one of the scope
prefixes `scopePrefixes start`, which are computed once from the start URL
before the traversal and are not part of the loop state, hence never grow. -/
theorem c7_enqueued_in_scope (net : String → Option Page) (dl : String → Bool)
    (root : PPath) (start : String) (fuel : Nat) :
    ∀ x ∈ (crawl_directory net dl root start fuel).acc.enqueued,
      allowed_scope x = true ∧
      ∃ p ∈ scopePrefixes start, strStarts x p = true := by
  intro x hx
  unfold crawl_directory at hx
  by_cases h : allowed_scope start = true
  · rw [if_pos h] at hx
    have := crawlLoop_enqueued net dl root (scopePrefixes start) fuel [start] []
      emptyAcc (by intro y hy; exact absurd hy (by simp [emptyAcc])) x hx
    exact ⟨this.1, by simpa using List.any_eq_true.mp this.2⟩
  · rw [if_neg h] at hx
    exact absurd hx (by simp [emptyAcc])

/-- Witness for `c7_enqueued_in_scope`: crawling from `b.html` enqueues
`a.html`, which is in scope and extends the directory prefix. -/
theorem c7_witness :
    allowed_scope urlManA = true ∧
    ∃ p ∈ scopePrefixes urlManB, strStarts urlManA p = true :=
  c7_enqueued_in_scope netC4 dlNone root0 urlManB 5 urlManA (by decide)

lemma crawlLoop_saved_nodup (net : String → Option Page) (dl : String → Bool)
    (root : PPath) (prefixes : List String) :
    ∀ (fuel : Nat) (queue seen : List String) (acc : CrawlAcc),
      acc.savedList.Nodup → (∀ v ∈ acc.savedList, seen.contains v = true) →
      ((crawlLoop net dl root prefixes fuel queue seen acc).acc.savedList).Nodup := by
  intro fuel
  induction fuel with
  | zero =>
    intro queue seen acc h1 h2
    cases queue <;> simpa [crawlLoop] using h1
  | succ f ih =>
    intro queue seen acc h1 h2
    cases queue with
    | nil => simpa [crawlLoop] using h1
    | cons u rest =>
      rw [crawlLoop]
      by_cases hc : seen.contains u = true
      · rw [if_pos hc]; exact ih rest seen acc h1 h2
      · rw [if_neg hc]
        dsimp only
        have hu : u ∉ acc.savedList := fun hm => hc (h2 u hm)
        cases hn : net u with
        | none =>
          dsimp only
          refine ih rest (u :: seen) _ h1 ?_
          intro v hv
          have hm : v ∈ seen := by simpa using h2 v hv
          simpa using Or.inr hm
        | some pg =>
          dsimp only
          cases hr : rewrite_links_and_save root dl u pg with
          | error e => exact h1
          | ok r =>
            dsimp only
            refine ih _ (u :: seen) _ ?_ ?_
            · simp only [List.nodup_append, List.nodup_cons, List.nodup_nil]
              exact ⟨h1, by simp, by
                intro a ha hb
                rw [List.mem_singleton.mp hb] at ha
                exact hu ha⟩
            · intro v hv
              rcases List.mem_append.mp hv with hv1 | hv2
              · have hm : v ∈ seen := by simpa using h2 v hv1
                simpa using Or.inr hm
              · rw [List.mem_singleton.mp hv2]
                simp

/-- C4 (amended).  Within a single `crawl_directory` run the visited set
guarantees each URL is saved at most once: the sequence of saved URLs has
no duplicate.  Across the several crawls of one `scrape_from` run there is
no shared saved set, and a page reachable from two start URLs is saved once
per crawl (see the counterexample). -/
theorem c4_saved_once_per_crawl (net : String → Option Page) (dl : String → Bool)
    (root : PPath) (start : String) (fuel : Nat) :
    ((crawl_directory net dl root start fuel).acc.savedList).Nodup := by
  unfold crawl_directory
  by_cases h : allowed_scope start = true
  · rw [if_pos h]
    exact crawlLoop_saved_nodup net dl root (scopePrefixes start) fuel [start] []
      emptyAcc (by simp [emptyAcc]) (by simp [emptyAcc])
  · rw [if_neg h]
    simp [emptyAcc]

lemma pageLinks_nil (prefixes : List String) (u : String) (pg : Page)
    (seen : List String)
    (h : ∀ n ∈ pg.nodes, n.tag = "a" → ∀ href, lookupAttr n "href" = some href →
         ∀ a, abs_url u href = some a → allowed_scope a = false) :
    pageLinks prefixes u pg seen = [] := by
  unfold pageLinks
  rw [List.filterMap_eq_nil_iff]
  intro n hn
  obtain ⟨hmem, htag⟩ := List.mem_filter.mp hn
  cases hl : lookupAttr n "href" with
  | none => rfl
  | some href =>
    dsimp only
    cases habs : abs_url u href with
    | none => rfl
    | some a =>
      have hfalse := h n hmem (by simpa using htag) href hl a habs
      simp [hfalse]

/-- C8 (amended).  If the start URL is in scope, its fetch succeeds, the
rewriter saves the page without raising, and no link of the page resolves
to an in-scope absolute URL, then `crawl_directory` saves exactly the
start URL and returns a count of 1.  The rewriter proviso is necessary:
see `c8_counterexample`. -/
theorem c8_zero_links_saves_one (net : String → Option Page) (dl : String → Bool)
    (root : PPath) (start : String) (pg : Page) (r : RWResult) (fuel : Nat)
    (h1 : allowed_scope start = true)
    (h2 : net start = some pg)
    (h3 : rewrite_links_and_save root dl start pg = .ok r)
    (h4 : ∀ n ∈ pg.nodes, n.tag = "a" → ∀ href, lookupAttr n "href" = some href →
          ∀ a, abs_url start href = some a → allowed_scope a = false) :
    crawl_directory net dl root start (fuel + 1) =
      ⟨⟨[start], [start], [], r.attempted, 1⟩, .done⟩ := by
  unfold crawl_directory
  rw [if_pos h1, crawlLoop]
  rw [if_neg (by simp)]
  dsimp only
  rw [h2]
  dsimp only
  rw [h3]
  dsimp only
  rw [pageLinks_nil (scopePrefixes start) start pg [start] h4]
  rw [List.nil_append, crawlLoop_nil]
  simp [emptyAcc]

/-- Witness for `c8_zero_links_saves_one`: a start page with no links. -/
theorem c8_witness :
    crawl_directory (fun u => if u = urlManA then some ⟨[], []⟩ else none)
      dlNone root0 urlManA 4 =
      ⟨⟨[urlManA], [urlManA], [],
        (⟨⟨[], []⟩, [], ⟨true, ["opt", "scraper", "html", "man", "a.html"]⟩⟩ : RWResult).attempted,
        1⟩, .done⟩ :=
  c8_zero_links_saves_one (fun u => if u = urlManA then some ⟨[], []⟩ else none)
    dlNone root0 urlManA ⟨[], []⟩
    ⟨⟨[], []⟩, [], ⟨true, ["opt", "scraper", "html", "man", "a.html"]⟩⟩ 3
    (by decide) (by decide) (by decide) (by intro n hn; exact absurd hn (by simp))

/-- A session serving the zero-anchor page `pgC6` at one in-scope URL. -/
def netC8 : String → Option Page := fun u =>
  if u = "https://bid3.afry.com/pages/q.html" then some pgC6 else none

/-- C8 (counterexample).  A crawl of an in-scope start URL whose fetch
succeeds and whose page has zero links — no anchor elements at all — yet
`crawl_directory` does not save one page and return 1: the page carries a
same-site `DOMAIN//`-asset that downloads successfully and whose local
path escapes the output root, so the rewriter's uncaught `relative_to`
error aborts the crawl before the page is saved, leaving zero saved pages
and a raised exception. -/
theorem c8_counterexample :
    allowed_scope "https://bid3.afry.com/pages/q.html" = true ∧
    netC8 "https://bid3.afry.com/pages/q.html" = some pgC6 ∧
    pgC6.nodes.filter (fun n => n.tag = "a") = [] ∧
    crawl_directory netC8 dlC6 root0 "https://bid3.afry.com/pages/q.html" 3 =
      ⟨⟨["https://bid3.afry.com/pages/q.html"], [], [], [], 0⟩, .raised⟩ := by
  decide

/-- The asset URL a node would be downloaded from, when its processing
reaches the asset branch (same-site, not an in-scope page link). -/
def nodeAssetUrl (url : String) (n : Node) : Option String :=
  match findRule n.tag with
  | none => none
  | some (attr, isAsset) =>
    match lookupAttr n attr with
    | none => none
    | some v =>
      match abs_url url v with
      | none => none
      | some a =>
        if strStarts a PAGES_PREFIX then none
        else if isAsset && strStarts a DOMAIN then some a
        else none

/-- The asset URL a style `url(...)` token would be downloaded from. -/
def tokAssetUrl (tok : String) : Option String :=
  let u0 := stripQuotes tok
  match (if u0 = "" then none else abs_url u0 u0) with
  | none => none
  | some a => if strStarts a DOMAIN then some a else none

/-- An asset URL whose local destination stays under the output root, so
that `relative_to` succeeds after a successful download: the stripped
remainder is relative and, when a query string forces the hash rename,
nonempty. -/
def assetMappable (a : String) : Prop :=
  (parseRel (stripAfterHost a)).isAbs = false ∧
  (urlQuery a ≠ "" → (parseRel (stripAfterHost a)).comps ≠ [])

lemma relativeTo_append (root : PPath) (X : List String) :
    relativeTo ⟨root.isAbs, root.comps ++ X⟩ root = .ok X := by
  have hpre : root.comps.isPrefixOf (root.comps ++ X) = true := by
    simp [List.isPrefixOf_iff_prefix]
  simp [relativeTo, hpre, List.drop_left]

lemma relativeTo_local_ok (root : PPath) (a : String) (h : assetMappable a) :
    ∃ comps, relativeTo (local_for_url root a) root = .ok comps := by
  obtain ⟨h1, h2⟩ := h
  unfold local_for_url
  have hbase : pathJoin root (stripAfterHost a) =
      ⟨root.isAbs, root.comps ++ (parseRel (stripAfterHost a)).comps⟩ := by
    unfold pathJoin
    rw [if_neg (by simp [h1])]
  by_cases hq : urlQuery a = ""
  · rw [if_pos hq, hbase]
    exact ⟨_, relativeTo_append root _⟩
  · rw [if_neg hq, hbase]
    unfold withName
    have hcne := h2 hq
    dsimp only
    rw [List.dropLast_append_of_ne_nil _ hcne, List.append_assoc]
    exact ⟨_, relativeTo_append root _⟩

lemma processNode_ok (root : PPath) (dl : String → Bool) (url : String) (n : Node)
    (hdl : ∀ a, dl a = true → assetMappable a) :
    ∃ y, processNode root dl url n = .ok y ∧
      (∀ a, nodeAssetUrl url n = some a → dl a = false → y.1 = n) := by
  unfold processNode nodeAssetUrl
  cases findRule n.tag with
  | none => exact ⟨(n, []), rfl, by intro a ha; exact absurd ha (by simp)⟩
  | some rule =>
    obtain ⟨attr, isAsset⟩ := rule
    dsimp only
    cases lookupAttr n attr with
    | none => exact ⟨(n, []), rfl, by intro a ha; exact absurd ha (by simp)⟩
    | some v =>
      dsimp only
      cases abs_url url v with
      | none => exact ⟨(n, []), rfl, by intro a ha; exact absurd ha (by simp)⟩
      | some a =>
        dsimp only
        by_cases hpp : strStarts a PAGES_PREFIX = true
        · rw [if_pos hpp, if_pos hpp]
          exact ⟨_, rfl, by intro b hb; exact absurd hb (by simp)⟩
        · rw [if_neg hpp, if_neg hpp]
          by_cases hd : (isAsset && strStarts a DOMAIN) = true
          · rw [if_pos hd, if_pos hd]
            cases hdla : dl a with
            | false =>
              rw [if_neg (by simp [hdla])]
              refine ⟨(n, [(a, false)]), rfl, ?_⟩
              intro b hb hdlb
              rfl
            | true =>
              rw [if_pos (by simp [hdla])]
              obtain ⟨comps, hcomps⟩ := relativeTo_local_ok root a (hdl a hdla)
              rw [hcomps]
              refine ⟨_, rfl, ?_⟩
              intro b hb hdlb
              obtain rfl : a = b := by simpa using hb
              rw [hdla] at hdlb
              exact absurd hdlb (by simp)
          · rw [if_neg hd, if_neg hd]
            exact ⟨(n, []), rfl, by intro b hb; exact absurd hb (by simp)⟩

lemma processStyleTok_ok (root : PPath) (dl : String → Bool) (tok : String)
    (hdl : ∀ a, dl a = true → assetMappable a) :
    ∃ y, processStyleTok root dl tok = .ok y ∧
      (∀ a, tokAssetUrl tok = some a → dl a = false → y.1 = tok) := by
  unfold processStyleTok tokAssetUrl
  dsimp only
  generalize (if stripQuotes tok = "" then none
      else abs_url (stripQuotes tok) (stripQuotes tok)) = ob
  cases ob with
  | none => exact ⟨(tok, []), rfl, by intro a ha; exact absurd ha (by simp)⟩
  | some a =>
    dsimp only
    by_cases hd : strStarts a DOMAIN = true
    · rw [if_pos hd, if_pos hd]
      cases hdla : dl a with
      | false =>
        rw [if_neg (by simp [hdla])]
        refine ⟨(tok, [(a, false)]), rfl, ?_⟩
        intro b hb hdlb
        rfl
      | true =>
        rw [if_pos (by simp [hdla])]
        obtain ⟨comps, hcomps⟩ := relativeTo_local_ok root a (hdl a hdla)
        rw [hcomps]
        refine ⟨_, rfl, ?_⟩
        intro b hb hdlb
        obtain rfl : a = b := by simpa using hb
        rw [hdla] at hdlb
        exact absurd hdlb (by simp)
    · rw [if_neg hd, if_neg hd]
      exact ⟨(tok, []), rfl, by intro b hb; exact absurd hb (by simp)⟩

lemma mapM_ok_of_forall {α β : Type} (f : α → Except Unit β) :
    ∀ (l : List α), (∀ x ∈ l, ∃ y, f x = .ok y) →
      ∃ l2, l.mapM f = .ok l2 ∧ List.Forall₂ (fun x y => f x = .ok y) l l2 := by
  intro l
  induction l with
  | nil => intro _; exact ⟨[], rfl, List.Forall₂.nil⟩
  | cons a as ih =>
    intro h
    obtain ⟨y, hy⟩ := h a (by simp)
    obtain ⟨l2, hl2, hf⟩ := ih (fun x hx => h x (by simp [hx]))
    refine ⟨y :: l2, ?_, List.Forall₂.cons hy hf⟩
    rw [List.mapM_cons, hy, hl2]
    rfl

/-- C6 (amended).  Provided the page URL is in scope and every asset URL
the session can successfully download maps under the output root, the
rewriter never fails: the page is written to its canonical local path, and
every node or style reference whose asset download fails is left exactly
as it was.  (The counterexample shows the proviso is needed: a successful
download of a `DOMAIN//...` asset aborts the page save.) -/
theorem c6_asset_failure_nonfatal (root : PPath) (dl : String → Bool)
    (url : String) (pg : Page)
    (h1 : allowed_scope url = true)
    (hdl : ∀ a, dl a = true → assetMappable a) :
    ∃ r, rewrite_links_and_save root dl url pg = .ok r ∧
      r.savedAt = pathJoin root (stripPagesPrefix url) ∧
      List.Forall₂
        (fun n n2 => ∀ a, nodeAssetUrl url n = some a → dl a = false → n2 = n)
        pg.nodes r.page.nodes ∧
      List.Forall₂
        (fun blk blk2 =>
          List.Forall₂
            (fun t t2 => ∀ a, tokAssetUrl t = some a → dl a = false → t2 = t)
            blk blk2)
        pg.styles r.page.styles := by
  obtain ⟨rs, hrs, hfrs⟩ :=
    mapM_ok_of_forall (processNode root dl url) pg.nodes
      (fun n _ => ⟨(processNode_ok root dl url n hdl).choose,
        (processNode_ok root dl url n hdl).choose_spec.1⟩)
  obtain ⟨sblks, hsblks, hfs⟩ :=
    mapM_ok_of_forall (fun blk => blk.mapM (processStyleTok root dl)) pg.styles
      (fun blk _ =>
        let h := mapM_ok_of_forall (processStyleTok root dl) blk
          (fun t _ => ⟨(processStyleTok_ok root dl t hdl).choose,
            (processStyleTok_ok root dl t hdl).choose_spec.1⟩)
        ⟨h.choose, h.choose_spec.1⟩)
  refine ⟨⟨⟨rs.map (fun p => p.1), sblks.map (fun b => b.map (fun p => p.1))⟩,
      (rs.map (fun p => p.2)).flatten ++
        ((sblks.map (fun b => (b.map (fun p => p.2)).flatten)).flatten),
      pathJoin root (stripPagesPrefix url)⟩, ?_, rfl, ?_, ?_⟩
  · unfold rewrite_links_and_save
    rw [hrs, hsblks]
    dsimp only
    simp [sanitize_local_path, h1]
  · simp only [List.forall₂_map_right_iff]
    refine hfrs.imp ?_
    intro n y hy a ha hdla
    obtain ⟨y2, hy2, hprop⟩ := processNode_ok root dl url n hdl
    rw [hy] at hy2
    obtain rfl : y = y2 := by simpa using hy2
    exact hprop a ha hdla
  · simp only [List.forall₂_map_right_iff]
    refine hfs.imp ?_
    intro blk bret hbret
    obtain ⟨b2, hb2, hf2⟩ := mapM_ok_of_forall (processStyleTok root dl) blk
      (fun t _ => ⟨(processStyleTok_ok root dl t hdl).choose,
        (processStyleTok_ok root dl t hdl).choose_spec.1⟩)
    rw [hbret] at hb2
    obtain rfl : bret = b2 := by simpa using hb2
    refine hf2.imp ?_
    intro t y hy a ha hdla
    obtain ⟨y2, hy2, hprop⟩ := processStyleTok_ok root dl t hdl
    rw [hy] at hy2
    obtain rfl : y = y2 := by simpa using hy2
    exact hprop a ha hdla

def pgC6w : Page := ⟨[⟨"img", [("src", "style.css")]⟩], [["banner.png"]]⟩

/-- Witness for `c6_asset_failure_nonfatal` on a page whose only asset
download fails; the hypotheses hold vacuously for the all-failing session. -/
theorem c6_witness :
    ∃ r, rewrite_links_and_save root0 dlNone urlManA pgC6w = .ok r ∧
      r.savedAt = pathJoin root0 (stripPagesPrefix urlManA) ∧
      List.Forall₂
        (fun n n2 => ∀ a, nodeAssetUrl urlManA n = some a → dlNone a = false → n2 = n)
        pgC6w.nodes r.page.nodes ∧
      List.Forall₂
        (fun blk blk2 =>
          List.Forall₂
            (fun t t2 => ∀ a, tokAssetUrl t = some a → dlNone a = false → t2 = t)
            blk blk2)
        pgC6w.styles r.page.styles :=
  c6_asset_failure_nonfatal root0 dlNone urlManA pgC6w (by decide)
    (fun a ha => absurd ha (by simp [dlNone]))

/-- C9 (confirmed).  On a tree holding one saved page whose anchors are a
single non-empty relative link to a file that does not exist, the validator
reports exactly one broken-link entry, naming that page and that link.
The embedded function is pure: it only reads the tree. -/
theorem c9_single_broken_link (hp : PPath) (pg : Page) (href : String)
    (others : List PPath)
    (h1 : (pg.nodes.filter (fun n => n.tag = "a")).map (fun n => lookupAttr n "href") =
      [some href])
    (h2 : href ≠ "")
    (h3 : strStarts href "http" = false)
    (h4 : fsExists ⟨[(hp, pg)], others⟩ (resolveP (pathJoin (parentPath hp) href)) = false) :
    validate_local_site ⟨[(hp, pg)], others⟩ =
      [pathString hp ++ ": broken link " ++ href] := by
  unfold validate_local_site
  simp only [List.map_cons, List.map_nil, List.flatten_cons, List.flatten_nil,
    List.append_nil]
  cases hf : pg.nodes.filter (fun n => n.tag = "a") with
  | nil => rw [hf] at h1; exact absurd h1 (by simp)
  | cons n rest =>
    rw [hf] at h1
    simp only [List.map_cons] at h1
    have hn : lookupAttr n "href" = some href := (List.cons_eq_cons.mp h1).1
    have hrest : rest = [] := by
      have h5 := (List.cons_eq_cons.mp h1).2
      cases rest with
      | nil => rfl
      | cons b bs => exact absurd h5 (by simp)
    subst hrest
    simp only [List.filterMap_cons, List.filterMap_nil, hn]
    rw [if_neg (by simp [h2, h3]), h4]
    simp

def hpC9 : PPath := ⟨true, ["opt", "scraper", "html", "man", "a.html"]⟩

def pgC9 : Page := ⟨[⟨"a", [("href", "missing.html")]⟩], []⟩

/-- Witness for `c9_single_broken_link` on a one-page tree. -/
theorem c9_witness :
    validate_local_site ⟨[(hpC9, pgC9)], []⟩ =
      [pathString hpC9 ++ ": broken link " ++ "missing.html"] :=
  c9_single_broken_link hpC9 pgC9 "missing.html" [] (by decide) (by decide)
    (by decide) (by decide)

lemma mapM_cons_ok {α β : Type} (f : α → Except Unit β) (a : α) (as : List α)
    (l2 : List β) (h : (a :: as).mapM f = .ok l2) :
    ∃ y ys, f a = .ok y ∧ as.mapM f = .ok ys ∧ l2 = y :: ys := by
  rw [List.mapM_cons] at h
  cases hy : f a with
  | error e =>
    rw [hy] at h
    exact absurd h (by simp [Bind.bind, Except.bind])
  | ok y =>
    rw [hy] at h
    cases hm : as.mapM f with
    | error e =>
      rw [hm] at h
      exact absurd h (by simp [Bind.bind, Except.bind])
    | ok ys =>
      rw [hm] at h
      refine ⟨y, ys, rfl, rfl, ?_⟩
      simpa [Bind.bind, Except.bind, pure, Except.pure] using h.symm

lemma forall₂_of_mapM_ok {α β : Type} (f : α → Except Unit β) :
    ∀ (l : List α) (l2 : List β), l.mapM f = .ok l2 →
      List.Forall₂ (fun x y => f x = .ok y) l l2 := by
  intro l
  induction l with
  | nil =>
    intro l2 h
    have h3 : (Except.ok [] : Except Unit (List β)) = .ok l2 := h
    have h2 : l2 = [] := by simpa using h3.symm
    subst h2
    exact .nil
  | cons a as ih =>
    intro l2 h
    obtain ⟨y, ys, hy, hm, rfl⟩ := mapM_cons_ok f a as l2 h
    exact .cons hy (ih ys hm)

lemma rewrite_ok_inv (root : PPath) (dl : String → Bool) (url : String)
    (pg : Page) (r : RWResult)
    (h : rewrite_links_and_save root dl url pg = .ok r) :
    ∃ rs sblks, pg.nodes.mapM (processNode root dl url) = .ok rs ∧
      pg.styles.mapM (fun blk => blk.mapM (processStyleTok root dl)) = .ok sblks ∧
      allowed_scope url = true ∧
      r.page.nodes = rs.map (fun p => p.1) := by
  unfold rewrite_links_and_save at h
  cases hrs : pg.nodes.mapM (processNode root dl url) with
  | error e => rw [hrs] at h; exact absurd h (by simp)
  | ok rs =>
    rw [hrs] at h
    cases hsb : pg.styles.mapM (fun blk => blk.mapM (processStyleTok root dl)) with
    | error e => rw [hsb] at h; exact absurd h (by simp)
    | ok sblks =>
      rw [hsb] at h
      cases hsc : allowed_scope url with
      | false =>
        rw [show sanitize_local_path root url = .error () by
          simp [sanitize_local_path, hsc]] at h
        exact absurd h (by simp)
      | true =>
        rw [show sanitize_local_path root url =
            .ok (pathJoin root (stripPagesPrefix url)) by
          simp [sanitize_local_path, hsc]] at h
        refine ⟨rs, sblks, rfl, rfl, rfl, ?_⟩
        have h2 := (Except.ok.inj h).symm
        rw [h2]

lemma find?_setAttr (attrs : List (String × String)) (k v : String)
    (h : (attrs.find? (fun p => p.1 = k)).isSome = true) :
    (setAttr attrs k v).find? (fun p => p.1 = k) = some (k, v) := by
  induction attrs with
  | nil => simp at h
  | cons p ps ih =>
    simp only [setAttr, List.map_cons]
    by_cases hp : p.1 = k
    · rw [if_pos hp]
      rw [List.find?_cons_of_pos _ (by simp)]
    · rw [if_neg hp]
      rw [List.find?_cons_of_neg _ (by simp [hp])]
      rw [List.find?_cons_of_neg _ (by simp [hp])] at h
      exact ih h

lemma lookupAttr_setAttr (n : Node) (k v w : String)
    (h : lookupAttr n k = some w) :
    lookupAttr ⟨n.tag, setAttr n.attrs k v⟩ k = some v := by
  unfold lookupAttr at h ⊢
  dsimp only at h ⊢
  have hsome : (n.attrs.find? (fun p => p.1 = k)).isSome = true := by
    cases hf : n.attrs.find? (fun p => p.1 = k) with
    | none => rw [hf] at h; simp at h
    | some q => simp
  rw [find?_setAttr n.attrs k v hsome]
  rfl

lemma parseRel_dotSlash (rel : String) :
    parseRel ("./" ++ rel) = ⟨false, (parseRel rel).comps⟩ := by
  cases rel with
  | mk l => rfl

lemma resolveRef_dotSlash (root : PPath) (rel : String)
    (h : (parseRel rel).isAbs = false) :
    resolveRef root ("./" ++ rel) = pathJoin root rel := by
  unfold resolveRef pathJoin
  rw [parseRel_dotSlash]
  dsimp only
  rw [if_neg (by simp), if_neg (by simp [h])]

/-- C1 (amended).  For every in-scope hyperlink target, the rewriter sets
the reference to `"./" ++ stripPagesPrefix target` — the target's path
relative to the output root, computed exactly as the page mapping
`sanitize_local_path` computes it — so the reference resolves to the
target's save location from the OUTPUT ROOT.  (Per the counterexample, it
does not in general resolve correctly from the saved page's own directory,
which coincides with the output root only for top-level pages.) -/
theorem c1_rewrite_relative_to_root (root : PPath) (dl : String → Bool)
    (url : String) (pg : Page) (r : RWResult)
    (hok : rewrite_links_and_save root dl url pg = .ok r) :
    List.Forall₂
      (fun n n2 => n.tag = "a" → ∀ href target,
        lookupAttr n "href" = some href → abs_url url href = some target →
        allowed_scope target = true →
        lookupAttr n2 "href" = some ("./" ++ stripPagesPrefix target))
      pg.nodes r.page.nodes ∧
    (∀ target, allowed_scope target = true →
      sanitize_local_path root target = .ok (pathJoin root (stripPagesPrefix target)) ∧
      ((parseRel (stripPagesPrefix target)).isAbs = false →
        resolveRef root ("./" ++ stripPagesPrefix target) =
          pathJoin root (stripPagesPrefix target))) := by
  obtain ⟨rs, sblks, hrs, hsb, hsc, hnodes⟩ := rewrite_ok_inv root dl url pg r hok
  constructor
  · rw [hnodes]
    simp only [List.forall₂_map_right_iff]
    refine (forall₂_of_mapM_ok (processNode root dl url) pg.nodes rs hrs).imp ?_
    intro n y hpn htag href target hhref habs htsc
    unfold processNode at hpn
    rw [show findRule n.tag = some ("href", false) by rw [htag]; rfl] at hpn
    dsimp only at hpn
    rw [hhref] at hpn
    dsimp only at hpn
    rw [habs] at hpn
    dsimp only at hpn
    rw [if_pos (show strStarts target PAGES_PREFIX = true from htsc)] at hpn
    have hy : y = (⟨n.tag, setAttr n.attrs "href" ("./" ++ stripPagesPrefix target)⟩,
        ([] : List (String × Bool))) := by
      simpa using hpn.symm
    rw [hy]
    exact lookupAttr_setAttr n "href" _ href hhref
  · intro target htsc
    exact ⟨by simp [sanitize_local_path, htsc],
      fun habs => resolveRef_dotSlash root _ habs⟩

/-- Witness for `c1_rewrite_relative_to_root` at the concrete page of the
counterexample. -/
theorem c1_witness :
    List.Forall₂
      (fun n n2 => n.tag = "a" → ∀ href target,
        lookupAttr n "href" = some href → abs_url urlManA href = some target →
        allowed_scope target = true →
        lookupAttr n2 "href" = some ("./" ++ stripPagesPrefix target))
      pgC1.nodes rwC1.page.nodes ∧
    (∀ target, allowed_scope target = true →
      sanitize_local_path root0 target = .ok (pathJoin root0 (stripPagesPrefix target)) ∧
      ((parseRel (stripPagesPrefix target)).isAbs = false →
        resolveRef root0 ("./" ++ stripPagesPrefix target) =
          pathJoin root0 (stripPagesPrefix target))) :=
  c1_rewrite_relative_to_root root0 dlNone urlManA pgC1 rwC1 (by decide)

lemma afterFirst_append (c : Char) (B : List Char) :
    ∀ (A : List Char), c ∉ A → afterFirst c (A ++ c :: B) = some B := by
  intro A
  induction A with
  | nil => intro _; simp [afterFirst]
  | cons x xs ih =>
    intro h
    have hx : ¬ x = c := fun he => h (he ▸ List.mem_cons_self x xs)
    simp only [List.cons_append, afterFirst]
    rw [if_neg hx]
    exact ih (fun hc => h (List.mem_cons_of_mem x hc))

lemma urlQuery_split (A Q : List Char)
    (hA : '?' ∉ A) (hAh : '#' ∉ A) (hQh : '#' ∉ Q) :
    urlQuery (String.mk (A ++ '?' :: Q)) = String.mk Q := by
  unfold urlQuery
  have htw : (A ++ '?' :: Q).takeWhile (fun c => c ≠ '#') = A ++ '?' :: Q := by
    rw [List.takeWhile_eq_self_iff]
    intro x hx
    rcases List.mem_append.mp hx with h1 | h2
    · simp only [ne_eq, decide_eq_true_eq]
      exact fun he => hAh (he ▸ h1)
    · rcases List.mem_cons.mp h2 with rfl | h3
      · decide
      · simp only [ne_eq, decide_eq_true_eq]
        exact fun he => hQh (he ▸ h3)
    -- takeWhile leaves the list whole since no member is the hash sign
  show (match afterFirst '?' ((A ++ '?' :: Q).takeWhile (fun c => c ≠ '#')) with
    | none => "" | some r => String.mk r) = String.mk Q
  rw [htw, afterFirst_append '?' Q A hA]

lemma stripScheme_https (R : List Char) :
    stripScheme ("https://".data ++ R) = some R := by
  have h1 : "http://".data.isPrefixOf ("https://".data ++ R) = false := rfl
  have h2 : "https://".data.isPrefixOf ("https://".data ++ R) = true := by
    simp [List.isPrefixOf_iff_prefix]
  unfold stripScheme
  rw [h1, h2]
  simp

lemma hostTail_split (H R : List Char) (hne : H ≠ []) (hs : '/' ∉ H) :
    hostTail (H ++ '/' :: R) = some R := by
  cases H with
  | nil => exact absurd rfl hne
  | cons x xs =>
    have hx : ¬ x = '/' := fun he => hs (he ▸ List.mem_cons_self x xs)
    show hostTail ((x :: xs) ++ '/' :: R) = some R
    unfold hostTail
    simp only [List.cons_append]
    rw [if_neg hx]
    have h2 := afterFirst_append '/' R (x :: xs) hs
    simpa using h2

lemma chSplitAux_ne_nil (c : Char) : ∀ (l acc : List Char), chSplitAux c l acc ≠ [] := by
  intro l
  induction l with
  | nil => intro acc; simp [chSplitAux]
  | cons x xs ih =>
    intro acc
    unfold chSplitAux
    by_cases hx : x = c
    · rw [if_pos hx]; simp
    · rw [if_neg hx]; exact ih (x :: acc)

lemma chSplitAux_noc (c : Char) : ∀ (Y acc : List Char), c ∉ Y →
    chSplitAux c Y acc = [acc.reverse ++ Y] := by
  intro Y
  induction Y with
  | nil => intro acc _; simp [chSplitAux]
  | cons y ys ih =>
    intro acc h
    have hy : ¬ y = c := fun he => h (he ▸ List.mem_cons_self y ys)
    unfold chSplitAux
    rw [if_neg hy, ih (y :: acc) (fun hc => h (List.mem_cons_of_mem y hc))]
    simp

lemma getLastD_cons_of_ne_nil {α : Type} (a : α) (l : List α) (d : α)
    (h : l ≠ []) : (a :: l).getLastD d = l.getLastD d := by
  cases l with
  | nil => exact absurd rfl h
  | cons b bs => simp [List.getLastD_cons]

lemma chSplitAux_append_noc (c : Char) (Y : List Char) (hY : c ∉ Y) :
    ∀ (X acc : List Char),
      chSplitAux c (X ++ Y) acc =
        (chSplitAux c X acc).dropLast ++
          [(chSplitAux c X acc).getLastD [] ++ Y] := by
  intro X
  induction X with
  | nil =>
    intro acc
    simp only [List.nil_append]
    rw [chSplitAux_noc c Y acc hY]
    simp [chSplitAux]
  | cons x xs ih =>
    intro acc
    by_cases hx : x = c
    · subst hx
      simp only [List.cons_append]
      unfold chSplitAux
      rw [if_pos rfl, if_pos rfl, ih []]
      have hne := chSplitAux_ne_nil x xs []
      rw [List.dropLast_cons_of_ne_nil hne, getLastD_cons_of_ne_nil _ _ _ hne]
      simp
    · simp only [List.cons_append]
      unfold chSplitAux
      rw [if_neg hx, if_neg hx]
      exact ih (x :: acc)

lemma chSplit_append_noc (c : Char) (X Y : List Char) (hY : c ∉ Y) :
    chSplit c (X ++ Y) =
      (chSplit c X).dropLast ++ [(chSplit c X).getLastD [] ++ Y] :=
  chSplitAux_append_noc c Y hY X []

lemma rfindIdx_none (c : Char) : ∀ (l : List Char), c ∉ l → rfindIdx c l = none := by
  intro l
  induction l with
  | nil => intro _; rfl
  | cons x xs ih =>
    intro h
    have hx : ¬ x = c := fun he => h (by rw [he]; exact List.mem_cons_self c xs)
    unfold rfindIdx
    rw [ih (fun hc => h (List.mem_cons_of_mem x hc))]
    rw [if_neg hx]

lemma rfindIdx_append_noc (c : Char) (B : List Char) (hB : c ∉ B) :
    ∀ (A : List Char), rfindIdx c (A ++ B) = rfindIdx c A := by
  intro A
  induction A with
  | nil => simpa using rfindIdx_none c B hB
  | cons x xs ih =>
    show rfindIdx c (x :: (xs ++ B)) = rfindIdx c (x :: xs)
    unfold rfindIdx
    rw [ih]

lemma rfindIdx_lt_length (c : Char) :
    ∀ (l : List Char) (i : Nat), rfindIdx c l = some i → i < l.length := by
  intro l
  induction l with
  | nil => intro i hsome; simp [rfindIdx] at hsome
  | cons x xs ih =>
    intro i h
    unfold rfindIdx at h
    cases hr : rfindIdx c xs with
    | some j =>
      rw [hr] at h
      obtain rfl : j + 1 = i := by simpa using h
      have := ih j hr
      simp only [List.length_cons]
      omega
    | none =>
      rw [hr] at h
      by_cases hx : x = c
      · rw [if_pos hx] at h
        obtain rfl : 0 = i := by simpa using h
        simp
      · rw [if_neg hx] at h
        exact absurd h (by simp)

lemma rfindIdx_get (c : Char) :
    ∀ (l : List Char) (i : Nat), rfindIdx c l = some i →
      ∀ (hlt : i < l.length), l.get ⟨i, hlt⟩ = c := by
  intro l
  induction l with
  | nil => intro i hsome; simp [rfindIdx] at hsome
  | cons x xs ih =>
    intro i h hlt
    unfold rfindIdx at h
    cases hr : rfindIdx c xs with
    | some j =>
      rw [hr] at h
      obtain rfl : j + 1 = i := by simpa using h
      exact ih j hr (by simpa using hlt)
    | none =>
      rw [hr] at h
      by_cases hx : x = c
      · rw [if_pos hx] at h
        obtain rfl : 0 = i := by simpa using h
        simpa using hx
      · rw [if_neg hx] at h
        exact absurd h (by simp)

lemma sha1Hex8_data_length (s : String) : (sha1Hex8 s).data.length = 8 := rfl

lemma sha1Hex8_length (s : String) : (sha1Hex8 s).length = 8 := rfl

lemma ne_dot_append (L0 Q : List Char) : L0 ++ '?' :: Q ≠ ['.'] := by
  cases L0 with
  | nil =>
    intro hcon
    exact absurd (List.cons_eq_cons.mp hcon).1 (by decide)
  | cons a as =>
    intro hcon
    have h2 := (List.cons_eq_cons.mp hcon).2
    simp at h2

lemma c3_last (root : PPath) (host P q : String)
    (hh1 : host ≠ "") (hh2 : '/' ∉ host.data) (hh3 : '?' ∉ host.data)
    (hh4 : '#' ∉ host.data)
    (hp1 : '?' ∉ P.data) (hp2 : '#' ∉ P.data)
    (hq0 : q ≠ "") (hqc : ∀ c ∈ q.data, c ≠ '/' ∧ c ≠ '.' ∧ c ≠ '#') :
    (local_for_url root ("https://" ++ host ++ "/" ++ P ++ "?" ++ q)).comps.getLastD "" =
      (nameSplit (String.mk ((chSplit '/' P.data).getLastD [] ++ '?' :: q.data))).1 ++
        "-" ++ sha1Hex8 q ++
        (nameSplit (String.mk ((chSplit '/' P.data).getLastD [] ++ '?' :: q.data))).2 := by
  have hne2 : host.data ≠ [] := by
    cases host with
    | mk l => intro hl; exact hh1 (by rw [show l = [] from hl])
  have hudata : ("https://" ++ host ++ "/" ++ P ++ "?" ++ q).data =
      ("https://".data ++ (host.data ++ '/' :: P.data)) ++ '?' :: q.data := by
    simp [String.data_append]
  have hu : ("https://" ++ host ++ "/" ++ P ++ "?" ++ q) =
      String.mk (("https://".data ++ (host.data ++ '/' :: P.data)) ++ '?' :: q.data) :=
    String.ext hudata
  have hA1 : '?' ∉ "https://".data ++ (host.data ++ '/' :: P.data) := by
    intro hm
    rcases List.mem_append.mp hm with h | h
    · exact absurd h (by decide)
    · rcases List.mem_append.mp h with h2 | h2
      · exact hh3 h2
      · rcases List.mem_cons.mp h2 with h3 | h3
        · exact absurd h3 (by decide)
        · exact hp1 h3
  have hA2 : '#' ∉ "https://".data ++ (host.data ++ '/' :: P.data) := by
    intro hm
    rcases List.mem_append.mp hm with h | h
    · exact absurd h (by decide)
    · rcases List.mem_append.mp h with h2 | h2
      · exact hh4 h2
      · rcases List.mem_cons.mp h2 with h3 | h3
        · exact absurd h3 (by decide)
        · exact hp2 h3
  have hA3 : '#' ∉ q.data := fun hm => (hqc '#' hm).2.2 rfl
  have hquery : urlQuery ("https://" ++ host ++ "/" ++ P ++ "?" ++ q) = q := by
    rw [hu, urlQuery_split _ _ hA1 hA2 hA3]
  have hstrip : stripAfterHost ("https://" ++ host ++ "/" ++ P ++ "?" ++ q) =
      String.mk (P.data ++ '?' :: q.data) := by
    rw [hu]
    unfold stripAfterHost
    have hsch : stripScheme ((String.mk (("https://".data ++
        (host.data ++ '/' :: P.data)) ++ '?' :: q.data)).data) =
        some (host.data ++ '/' :: (P.data ++ '?' :: q.data)) := by
      show stripScheme (("https://".data ++ (host.data ++ '/' :: P.data)) ++ '?' :: q.data) = _
      rw [show ("https://".data ++ (host.data ++ '/' :: P.data)) ++ '?' :: q.data =
          "https://".data ++ (host.data ++ '/' :: (P.data ++ '?' :: q.data)) by simp]
      exact stripScheme_https _
    rw [hsch]
    dsimp only
    rw [hostTail_split host.data (P.data ++ '?' :: q.data) hne2 hh2]
  have hY : '/' ∉ ('?' :: q.data) := by
    intro hm
    rcases List.mem_cons.mp hm with h | h
    · exact absurd h (by decide)
    · exact (hqc '/' h).1 rfl
  have hsplit : chSplit '/' (P.data ++ '?' :: q.data) =
      (chSplit '/' P.data).dropLast ++
        [(chSplit '/' P.data).getLastD [] ++ '?' :: q.data] :=
    chSplit_append_noc '/' P.data ('?' :: q.data) hY
  have hz1 : (chSplit '/' P.data).getLastD [] ++ '?' :: q.data ≠ [] := by
    cases (chSplit '/' P.data).getLastD [] <;> simp
  have hz2 : (chSplit '/' P.data).getLastD [] ++ '?' :: q.data ≠ ['.'] :=
    ne_dot_append _ _
  have hz2' : (chSplit '/' P.data).getLast?.getD [] ++ '?' :: q.data ≠ ['.'] :=
    ne_dot_append _ _
  have hclean : cleanParts (chSplit '/' (P.data ++ '?' :: q.data)) =
      cleanParts ((chSplit '/' P.data).dropLast) ++
        [String.mk ((chSplit '/' P.data).getLastD [] ++ '?' :: q.data)] := by
    rw [hsplit]
    unfold cleanParts cleanParts.chSplitJunk
    rw [List.filter_append]
    have hkeep : List.filter (fun c => ¬(c = [] ∨ c = ['.']))
        [(chSplit '/' P.data).getLastD [] ++ '?' :: q.data] =
        [(chSplit '/' P.data).getLastD [] ++ '?' :: q.data] := by
      simp [hz1, hz2, hz2']
    rw [hkeep, List.map_append]
    rfl
  have hbase : ∃ W, (pathJoin root (String.mk (P.data ++ '?' :: q.data))).comps =
      W ++ [String.mk ((chSplit '/' P.data).getLastD [] ++ '?' :: q.data)] := by
    unfold pathJoin
    dsimp only
    split
    · exact ⟨cleanParts ((chSplit '/' P.data).dropLast), by
        show cleanParts (chSplit '/' (P.data ++ '?' :: q.data)) = _
        rw [hclean]⟩
    · refine ⟨root.comps ++ cleanParts ((chSplit '/' P.data).dropLast), ?_⟩
      show root.comps ++ cleanParts (chSplit '/' (P.data ++ '?' :: q.data)) = _
      rw [hclean, List.append_assoc]
  obtain ⟨W, hW⟩ := hbase
  have hpname : pname (pathJoin root (String.mk (P.data ++ '?' :: q.data))) =
      String.mk ((chSplit '/' P.data).getLastD [] ++ '?' :: q.data) := by
    unfold pname
    rw [hW, List.getLast?_concat]
    rfl
  unfold local_for_url
  rw [hquery, hstrip, if_neg hq0]
  unfold withName
  dsimp only
  rw [hpname, hW, List.dropLast_concat]
  rw [List.getLastD_eq_getLast?, List.getLast?_concat]
  rfl

lemma c3_cancel_noDot (L : List Char) (q1 q2 : String)
    (h : String.mk (L ++ '?' :: q1.data) ++ "-" ++ sha1Hex8 q1 ++ "" =
         String.mk (L ++ '?' :: q2.data) ++ "-" ++ sha1Hex8 q2 ++ "") :
    q1 = q2 := by
  have hd := congrArg String.data h
  simp only [String.data_append, show ("" : String).data = [] from rfl,
    show ("-" : String).data = ['-'] from rfl, List.append_nil, List.nil_append,
    show ∀ X, (String.mk X).data = X from fun _ => rfl, List.append_assoc,
    List.cons_append, List.singleton_append] at hd
  have hd2 := List.append_cancel_left hd
  have hd3 := (List.cons_eq_cons.mp hd2).2
  have hd4 := List.append_inj' hd3 (by
    simp [List.length_cons, sha1Hex8_data_length, sha1Hex8_length])
  exact String.ext hd4.1

lemma c3_cancel_dot (S Z : List Char) (q1 q2 : String)
    (h : String.mk S ++ "-" ++ sha1Hex8 q1 ++ String.mk (Z ++ '?' :: q1.data) =
         String.mk S ++ "-" ++ sha1Hex8 q2 ++ String.mk (Z ++ '?' :: q2.data)) :
    q1 = q2 := by
  have hd := congrArg String.data h
  simp only [String.data_append, show ("-" : String).data = ['-'] from rfl,
    show ∀ X, (String.mk X).data = X from fun _ => rfl, List.append_assoc,
    List.nil_append, List.cons_append, List.singleton_append] at hd
  have hd2 := List.append_cancel_left hd
  have hd3 := (List.cons_eq_cons.mp hd2).2
  have hd4 := List.append_inj hd3 (by
    simp [sha1Hex8_data_length, sha1Hex8_length])
  have hd5 := List.append_cancel_left hd4.2
  have hd6 := (List.cons_eq_cons.mp hd5).2
  exact String.ext hd6

/-- C3 (amended).  `local_for_url` is a fixed function of the URL
(determinism is definitional in the pure embedding), and two URLs
identical except for their query strings receive distinct local paths
whenever the queries are free of `/`, `.` and `#` characters — the raw
query text is embedded in the file name, so ordinary queries can never
collide regardless of the truncated hash.  (Per the counterexample, the
claim fails for queries that differ only by empty or "." path segments
with colliding 8-character SHA-1 fingerprints.) -/
theorem c3_distinct_queries_distinct_paths
    (root : PPath) (host P q1 q2 : String)
    (hh1 : host ≠ "") (hh2 : '/' ∉ host.data) (hh3 : '?' ∉ host.data)
    (hh4 : '#' ∉ host.data)
    (hp1 : '?' ∉ P.data) (hp2 : '#' ∉ P.data)
    (hq1 : q1 ≠ "") (hq2 : q2 ≠ "")
    (hc1 : ∀ c ∈ q1.data, c ≠ '/' ∧ c ≠ '.' ∧ c ≠ '#')
    (hc2 : ∀ c ∈ q2.data, c ≠ '/' ∧ c ≠ '.' ∧ c ≠ '#')
    (hne : q1 ≠ q2) :
    local_for_url root ("https://" ++ host ++ "/" ++ P ++ "?" ++ q1) ≠
      local_for_url root ("https://" ++ host ++ "/" ++ P ++ "?" ++ q2) := by
  intro heq
  have e1 := c3_last root host P q1 hh1 hh2 hh3 hh4 hp1 hp2 hq1 hc1
  have e2 := c3_last root host P q2 hh1 hh2 hh3 hh4 hp1 hp2 hq2 hc2
  have hlast := congrArg (fun p : PPath => p.comps.getLastD "") heq
  dsimp only at hlast
  rw [e1, e2] at hlast
  have hid1 : rfindIdx '.' ((chSplit '/' P.data).getLastD [] ++ '?' :: q1.data) =
      rfindIdx '.' ((chSplit '/' P.data).getLastD []) := by
    rw [show (chSplit '/' P.data).getLastD [] ++ '?' :: q1.data =
        ((chSplit '/' P.data).getLastD [] ++ ['?']) ++ q1.data by simp]
    rw [rfindIdx_append_noc '.' q1.data (fun hm => (hc1 '.' hm).2.1 rfl)]
    rw [rfindIdx_append_noc '.' ['?'] (by decide)]
  have hid2 : rfindIdx '.' ((chSplit '/' P.data).getLastD [] ++ '?' :: q2.data) =
      rfindIdx '.' ((chSplit '/' P.data).getLastD []) := by
    rw [show (chSplit '/' P.data).getLastD [] ++ '?' :: q2.data =
        ((chSplit '/' P.data).getLastD [] ++ ['?']) ++ q2.data by simp]
    rw [rfindIdx_append_noc '.' q2.data (fun hm => (hc2 '.' hm).2.1 rfl)]
    rw [rfindIdx_append_noc '.' ['?'] (by decide)]
  cases hod : rfindIdx '.' ((chSplit '/' P.data).getLastD []) with
  | none =>
    have hn1 : nameSplit (String.mk ((chSplit '/' P.data).getLastD [] ++ '?' :: q1.data)) =
        (String.mk ((chSplit '/' P.data).getLastD [] ++ '?' :: q1.data), "") := by
      unfold nameSplit
      rw [show (String.mk ((chSplit '/' P.data).getLastD [] ++ '?' :: q1.data)).data =
          (chSplit '/' P.data).getLastD [] ++ '?' :: q1.data from rfl, hid1, hod]
    have hn2 : nameSplit (String.mk ((chSplit '/' P.data).getLastD [] ++ '?' :: q2.data)) =
        (String.mk ((chSplit '/' P.data).getLastD [] ++ '?' :: q2.data), "") := by
      unfold nameSplit
      rw [show (String.mk ((chSplit '/' P.data).getLastD [] ++ '?' :: q2.data)).data =
          (chSplit '/' P.data).getLastD [] ++ '?' :: q2.data from rfl, hid2, hod]
    rw [hn1, hn2] at hlast
    exact hne (c3_cancel_noDot _ q1 q2 hlast)
  | some j =>
    have hjL : j < ((chSplit '/' P.data).getLastD []).length :=
      rfindIdx_lt_length '.' _ j hod
    by_cases hj0 : 0 < j
    · have hcond1 : 0 < j ∧ j + 1 <
          ((chSplit '/' P.data).getLastD [] ++ '?' :: q1.data).length := by
        refine ⟨hj0, ?_⟩
        simp only [List.length_append, List.length_cons]
        omega
      have hcond2 : 0 < j ∧ j + 1 <
          ((chSplit '/' P.data).getLastD [] ++ '?' :: q2.data).length := by
        refine ⟨hj0, ?_⟩
        simp only [List.length_append, List.length_cons]
        omega
      have hn1 : nameSplit (String.mk ((chSplit '/' P.data).getLastD [] ++ '?' :: q1.data)) =
          (String.mk (((chSplit '/' P.data).getLastD []).take j),
           String.mk ((((chSplit '/' P.data).getLastD []).drop j) ++ '?' :: q1.data)) := by
        unfold nameSplit
        rw [show (String.mk ((chSplit '/' P.data).getLastD [] ++ '?' :: q1.data)).data =
            (chSplit '/' P.data).getLastD [] ++ '?' :: q1.data from rfl, hid1, hod]
        dsimp only
        rw [if_pos hcond1]
        rw [List.take_append_of_le_length (le_of_lt hjL),
          List.drop_append_of_le_length (le_of_lt hjL)]
      have hn2 : nameSplit (String.mk ((chSplit '/' P.data).getLastD [] ++ '?' :: q2.data)) =
          (String.mk (((chSplit '/' P.data).getLastD []).take j),
           String.mk ((((chSplit '/' P.data).getLastD []).drop j) ++ '?' :: q2.data)) := by
        unfold nameSplit
        rw [show (String.mk ((chSplit '/' P.data).getLastD [] ++ '?' :: q2.data)).data =
            (chSplit '/' P.data).getLastD [] ++ '?' :: q2.data from rfl, hid2, hod]
        dsimp only
        rw [if_pos hcond2]
        rw [List.take_append_of_le_length (le_of_lt hjL),
          List.drop_append_of_le_length (le_of_lt hjL)]
      rw [hn1, hn2] at hlast
      exact hne (c3_cancel_dot _ _ q1 q2 hlast)
    · have hn1 : nameSplit (String.mk ((chSplit '/' P.data).getLastD [] ++ '?' :: q1.data)) =
          (String.mk ((chSplit '/' P.data).getLastD [] ++ '?' :: q1.data), "") := by
        unfold nameSplit
        rw [show (String.mk ((chSplit '/' P.data).getLastD [] ++ '?' :: q1.data)).data =
            (chSplit '/' P.data).getLastD [] ++ '?' :: q1.data from rfl, hid1, hod]
        dsimp only
        rw [if_neg (fun hcon => hj0 hcon.1)]
      have hn2 : nameSplit (String.mk ((chSplit '/' P.data).getLastD [] ++ '?' :: q2.data)) =
          (String.mk ((chSplit '/' P.data).getLastD [] ++ '?' :: q2.data), "") := by
        unfold nameSplit
        rw [show (String.mk ((chSplit '/' P.data).getLastD [] ++ '?' :: q2.data)).data =
            (chSplit '/' P.data).getLastD [] ++ '?' :: q2.data from rfl, hid2, hod]
        dsimp only
        rw [if_neg (fun hcon => hj0 hcon.1)]
      rw [hn1, hn2] at hlast
      exact hne (c3_cancel_noDot _ q1 q2 hlast)

/-- Witness for `c3_distinct_queries_distinct_paths` at two ordinary
cache-buster queries. -/
theorem c3_witness :
    local_for_url root0 ("https://" ++ "bid3.afry.com" ++ "/" ++ "static/a.css" ++ "?" ++ "x=1") ≠
      local_for_url root0 ("https://" ++ "bid3.afry.com" ++ "/" ++ "static/a.css" ++ "?" ++ "x=2") :=
  c3_distinct_queries_distinct_paths root0 "bid3.afry.com" "static/a.css" "x=1" "x=2"
    (by decide) (by decide) (by decide) (by decide) (by decide) (by decide)
    (by decide) (by decide) (by decide) (by decide) (by decide)

end Bid3
